import Mathlib

/-!
Verification of the cryptographic core of privacyidea (privacyidea/lib/crypto.py)
against its natural-language specification.

Modelling conventions:
* Python byte strings are `List Nat`, each element a byte value (< 256 where it
  matters; theorems carry these bounds as hypotheses).
* Library primitives that live outside the repository (the AES cipher of
  PyCrypto, RSA, base64, HMAC, the security-module backend) are modelled as
  abstract function bundles; the contracts the library documents (e.g. that
  decryption inverts encryption and preserves length) appear as hypotheses,
  which witnesses discharge with concrete instantiations.
* Python float arithmetic is modelled over exact rationals (`ℚ`); in the
  urandom functions, where IEEE-754 rounding is observable, every float
  operation additionally passes through an abstract binary64 rounding step
  (`PyFloat.fl`) constrained by its documented contract; `int()` truncation
  toward zero is `truncInt`.
* Code that raises an exception is modelled with `Option`/`Except`.
-/

set_option autoImplicit false

/-- Big-endian integer value of a byte string: `int(binascii.hexlify(bs), 16)`. -/
def bytesToNat : List Nat → Nat
  | [] => 0
  | b :: rest => b * 256 ^ rest.length + bytesToNat rest

/-- ASCII code of the lowercase hex digit for a nibble, as produced by
`binascii.hexlify`. -/
def nibbleCode (n : Nat) : Nat :=
  if n < 10 then 48 + n else 87 + n

/-- `binascii.hexlify`: each byte becomes two lowercase hex digit characters
(returned as their ASCII codes, since Python returns bytes). -/
def hexlify : List Nat → List Nat
  | [] => []
  | b :: rest => nibbleCode (b / 16) :: nibbleCode (b % 16) :: hexlify rest

/-- Value of one hex digit character (accepting both cases), `none` if the
character is not a hex digit. -/
def nibbleVal (c : Nat) : Option Nat :=
  if 48 ≤ c ∧ c ≤ 57 then some (c - 48)
  else if 97 ≤ c ∧ c ≤ 102 then some (c - 87)
  else if 65 ≤ c ∧ c ≤ 70 then some (c - 55)
  else none

/-- `binascii.unhexlify`: pairs of hex digit characters back to bytes; `none`
(a raised `binascii.Error`) on odd length or a non-hex character. -/
def unhexlify : List Nat → Option (List Nat)
  | [] => some []
  | [_] => none
  | a :: b :: rest =>
    match nibbleVal a, nibbleVal b, unhexlify rest with
    | some hi, some lo, some t => some ((hi * 16 + lo) :: t)
    | _, _, _ => none

theorem nibbleVal_nibbleCode {n : Nat} (h : n < 16) :
    nibbleVal (nibbleCode n) = some n := by
  unfold nibbleVal nibbleCode
  by_cases h10 : n < 10
  · rw [if_pos h10, if_pos (by omega)]
    congr 1
    omega
  · rw [if_neg h10, if_neg (by omega), if_pos (by omega)]
    congr 1
    omega

theorem unhexlify_hexlify {bs : List Nat} (h : ∀ b ∈ bs, b < 256) :
    unhexlify (hexlify bs) = some bs := by
  induction bs with
  | nil => rfl
  | cons b rest ih =>
    have hb : b < 256 := h b (List.mem_cons_self b rest)
    have hhi : b / 16 < 16 := by omega
    have hlo : b % 16 < 16 := by omega
    have hrest := ih (fun x hx => h x (List.mem_cons_of_mem b hx))
    simp only [hexlify, unhexlify, nibbleVal_nibbleCode hhi, nibbleVal_nibbleCode hlo, hrest]
    have : b / 16 * 16 + b % 16 = b := by omega
    rw [this]

theorem hexlify_injOn {xs ys : List Nat} (hx : ∀ b ∈ xs, b < 256)
    (hy : ∀ b ∈ ys, b < 256) (h : hexlify xs = hexlify ys) : xs = ys := by
  have := unhexlify_hexlify hx
  rw [h, unhexlify_hexlify hy] at this
  exact (Option.some_injective _ this).symm

theorem bytesToNat_lt {bs : List Nat} (h : ∀ b ∈ bs, b < 256) :
    bytesToNat bs < 256 ^ bs.length := by
  induction bs with
  | nil => simp [bytesToNat]
  | cons b rest ih =>
    have hb : b < 256 := h b (List.mem_cons_self b rest)
    have hrest := ih (fun x hx => h x (List.mem_cons_of_mem b hx))
    simp only [bytesToNat, List.length_cons, pow_succ]
    have h1 : b * 256 ^ rest.length ≤ 255 * 256 ^ rest.length :=
      Nat.mul_le_mul_right _ (by omega)
    calc b * 256 ^ rest.length + bytesToNat rest
        < b * 256 ^ rest.length + 256 ^ rest.length := by omega
      _ ≤ 255 * 256 ^ rest.length + 256 ^ rest.length := by omega
      _ = 256 ^ rest.length * 256 := by ring

/-- Python `int()` applied to an exact rational: truncation toward zero. -/
def truncInt (x : ℚ) : ℤ :=
  if 0 ≤ x then ⌊x⌋ else ⌈x⌉

/-- The PyCrypto AES object for a fixed mode (`AES.new(key, mode, iv)` with
its `encrypt`/`decrypt` methods), modelled abstractly: the repository calls
the library, it does not implement the cipher.  Theorems state the library's
documented contract (decryption inverts encryption, length is preserved) as
hypotheses. -/
structure AESCipher where
  enc : List Nat → List Nat → List Nat → List Nat
  dec : List Nat → List Nat → List Nat → List Nat

/-- `aes.block_size` for AES. -/
def block_size : Nat := 16

/-- Whether `AES.new(key, AES.MODE_CBC, iv)` accepts the key and IV
(otherwise the library raises `ValueError`). -/
def aes_new_ok (key iv : List Nat) : Prop :=
  (key.length = 16 ∨ key.length = 24 ∨ key.length = 32) ∧ iv.length = 16

instance aes_new_ok_dec (key iv : List Nat) : Decidable (aes_new_ok key iv) := by
  unfold aes_new_ok; infer_instance

/-- Python slice `output[0:-padding]`: empty when `padding = 0` (the slice
`[0:0]`), otherwise the first `length - padding` elements (all of them gone
when `padding` is at least the length). -/
def pySliceToNeg (output : List Nat) (padding : Nat) : List Nat :=
  if padding = 0 then [] else output.take (output.length - padding)

/-- `aes_decrypt(key, iv, cipherdata, mode=AES.MODE_CBC)` from crypto.py:
decrypt, read the last plaintext byte as the pad length, truncate.  `none`
models a raised exception: a bad key/IV size, a ciphertext that is not a
multiple of the block size (both `ValueError` from the library), or
`ord(output[-1])` on an empty decryption (`IndexError`). -/
def aes_decrypt (C : AESCipher) (key iv cipherdata : List Nat) : Option (List Nat) :=
  if aes_new_ok key iv ∧ cipherdata.length % block_size = 0 then
    let output := C.dec key iv cipherdata
    match output.getLast? with
    | none => none
    | some padding => some (pySliceToNeg output padding)
  else none

/-- `aes_encrypt(key, iv, data, mode=AES.MODE_CBC)` from crypto.py: append
PKCS#7-style padding of `block_size - len(data) % block_size` copies of the
pad byte, then encrypt.  `none` models the `ValueError` for a bad key/IV. -/
def aes_encrypt (C : AESCipher) (key iv data : List Nat) : Option (List Nat) :=
  if aes_new_ok key iv then
    let num_pad := block_size - data.length % block_size
    some (C.enc key iv (data ++ List.replicate num_pad num_pad))
  else none

/-- A concrete instantiation of the abstract cipher (the identity in both
directions); it satisfies the library contract and is used to evaluate the
abstract theorems on concrete inputs. -/
def idCipher : AESCipher :=
  { enc := fun _ _ d => d, dec := fun _ _ d => d }

theorem aes_decrypt_eq_of_ok {C : AESCipher} {key iv ct : List Nat}
    (h : aes_new_ok key iv) (halign : ct.length % block_size = 0) :
    aes_decrypt C key iv ct =
      match (C.dec key iv ct).getLast? with
      | none => none
      | some padding => some (pySliceToNeg (C.dec key iv ct) padding) := by
  unfold aes_decrypt
  rw [if_pos ⟨h, halign⟩]

theorem getLast?_append_replicate (data : List Nat) (p : Nat) (hp : 1 ≤ p) :
    (data ++ List.replicate p p).getLast? = some p := by
  obtain ⟨n, rfl⟩ : ∃ n, p = n + 1 := ⟨p - 1, by omega⟩
  rw [List.getLast?_append_of_ne_nil data (by simp), List.replicate_succ',
    List.getLast?_concat]

theorem pySliceToNeg_append_replicate (data : List Nat) (p : Nat) (hp : 1 ≤ p) :
    pySliceToNeg (data ++ List.replicate p p) p = data := by
  unfold pySliceToNeg
  rw [if_neg (by omega), List.length_append, List.length_replicate,
    Nat.add_sub_cancel, ← List.length_replicate p p]
  exact List.take_left data _

theorem aes_roundtrip_core (C : AESCipher) (key iv data : List Nat)
    (hok : aes_new_ok key iv)
    (hlen : ∀ d, (C.enc key iv d).length = d.length)
    (hrt : ∀ d, d.length % block_size = 0 → C.dec key iv (C.enc key iv d) = d) :
    aes_decrypt C key iv (C.enc key iv (data ++
      List.replicate (block_size - data.length % block_size)
        (block_size - data.length % block_size))) = some data := by
  have hp1 : 1 ≤ block_size - data.length % block_size := by
    unfold block_size; omega
  have halign :
      (data ++ List.replicate (block_size - data.length % block_size)
        (block_size - data.length % block_size)).length % block_size = 0 := by
    rw [List.length_append, List.length_replicate]
    unfold block_size
    omega
  rw [aes_decrypt_eq_of_ok hok (by rw [hlen]; exact halign), hrt _ halign,
    getLast?_append_replicate _ _ hp1]
  simp only [pySliceToNeg_append_replicate _ _ hp1]

/-- C2: for every AES key of 16, 24 or 32 bytes, every 16-byte IV and every
byte string, decrypting the encryption gives back the data.  The two
hypotheses on the cipher are the library contract of AES-CBC: length
preservation and decryption inverting encryption on block multiples. -/
theorem aes_decrypt_aes_encrypt (C : AESCipher) (key iv data : List Nat)
    (hkey : key.length = 16 ∨ key.length = 24 ∨ key.length = 32)
    (hiv : iv.length = 16)
    (hlen : ∀ d, (C.enc key iv d).length = d.length)
    (hrt : ∀ d, d.length % block_size = 0 → C.dec key iv (C.enc key iv d) = d) :
    (aes_encrypt C key iv data).bind (aes_decrypt C key iv) = some data := by
  have hok : aes_new_ok key iv := ⟨hkey, hiv⟩
  unfold aes_encrypt
  rw [if_pos hok, Option.some_bind]
  exact aes_roundtrip_core C key iv data hok hlen hrt

/-- Witness for C2: the round trip evaluated at a concrete key, IV and a
block-aligned data string, with the cipher instantiated concretely. -/
theorem aes_decrypt_aes_encrypt_witness :
    (aes_encrypt idCipher (List.replicate 16 0) (List.replicate 16 1)
        (List.replicate 16 5)).bind
      (aes_decrypt idCipher (List.replicate 16 0) (List.replicate 16 1)) =
      some (List.replicate 16 5) :=
  aes_decrypt_aes_encrypt idCipher _ _ _ (Or.inl (by decide)) (by decide)
    (fun _ => rfl) (fun _ _ => rfl)

/-- C9: on a valid key and IV and a non-empty block-aligned ciphertext,
aes_decrypt never raises: with b the value of the last decrypted byte, it
returns the first (length - b) decrypted bytes, the empty string when b is 0
or at least the plaintext length. -/
theorem aes_decrypt_total_truncation (C : AESCipher) (key iv ct : List Nat)
    (hkey : key.length = 16 ∨ key.length = 24 ∨ key.length = 32)
    (hiv : iv.length = 16)
    (hne : ct ≠ [])
    (halign : ct.length % block_size = 0)
    (hlen : (C.dec key iv ct).length = ct.length) :
    ∃ b, (C.dec key iv ct).getLast? = some b ∧
      aes_decrypt C key iv ct =
        some (if b = 0 ∨ (C.dec key iv ct).length ≤ b then []
              else (C.dec key iv ct).take ((C.dec key iv ct).length - b)) := by
  have hout : C.dec key iv ct ≠ [] := by
    intro h
    apply hne
    rw [← List.length_eq_zero, ← hlen, h]
    rfl
  obtain ⟨b, hb⟩ := Option.isSome_iff_exists.mp
    (by rwa [List.getLast?_isSome] : (C.dec key iv ct).getLast?.isSome)
  refine ⟨b, hb, ?_⟩
  rw [aes_decrypt_eq_of_ok ⟨hkey, hiv⟩ halign, hb]
  show some (pySliceToNeg (C.dec key iv ct) b) = _
  unfold pySliceToNeg
  congr 1
  by_cases hb0 : b = 0
  · rw [if_pos hb0, if_pos (Or.inl hb0)]
  · rw [if_neg hb0]
    by_cases hble : (C.dec key iv ct).length ≤ b
    · rw [if_pos (Or.inr hble), Nat.sub_eq_zero_of_le hble, List.take_zero]
    · rw [if_neg (by tauto)]

/-- Witness for C9: evaluated on a concrete 16-byte ciphertext whose last
decrypted byte is 200, larger than the length, so everything is discarded. -/
theorem aes_decrypt_total_truncation_witness :
    ∃ b, (idCipher.dec (List.replicate 16 0) (List.replicate 16 1)
        (List.replicate 15 6 ++ [200])).getLast? = some b ∧
      aes_decrypt idCipher (List.replicate 16 0) (List.replicate 16 1)
          (List.replicate 15 6 ++ [200]) =
        some (if b = 0 ∨ (idCipher.dec (List.replicate 16 0) (List.replicate 16 1)
                (List.replicate 15 6 ++ [200])).length ≤ b then []
              else (idCipher.dec (List.replicate 16 0) (List.replicate 16 1)
                  (List.replicate 15 6 ++ [200])).take
                ((idCipher.dec (List.replicate 16 0) (List.replicate 16 1)
                  (List.replicate 15 6 ++ [200])).length - b)) :=
  aes_decrypt_total_truncation idCipher _ _ _ (Or.inl (by decide)) (by decide)
    (by decide) (by decide) rfl

/-- Counterexample for C5: a ciphertext whose decryption ends in the pad byte
2 preceded by the byte 9 has invalid PKCS#7 padding, yet aes_decrypt does not
fail: it returns the blindly truncated plaintext. -/
theorem aes_decrypt_invalid_padding_not_rejected :
    (idCipher.dec (List.replicate 16 0) (List.replicate 16 0)
        [1, 2, 3, 4, 5, 6, 7, 8, 9, 10, 11, 12, 13, 14, 9, 2]).getLast? = some 2 ∧
    (idCipher.dec (List.replicate 16 0) (List.replicate 16 0)
        [1, 2, 3, 4, 5, 6, 7, 8, 9, 10, 11, 12, 13, 14, 9, 2])[14]? = some 9 ∧
    aes_decrypt idCipher (List.replicate 16 0) (List.replicate 16 0)
        [1, 2, 3, 4, 5, 6, 7, 8, 9, 10, 11, 12, 13, 14, 9, 2] =
      some [1, 2, 3, 4, 5, 6, 7, 8, 9, 10, 11, 12, 13, 14] := by
  refine ⟨rfl, rfl, ?_⟩
  decide

/-- C5 as amended: aes_decrypt performs no padding validation at all; on any
valid key and IV and any non-empty block-aligned ciphertext it succeeds,
whatever the trailing bytes are, instead of raising a PaddingError. -/
theorem aes_decrypt_skips_padding_validation (C : AESCipher) (key iv ct : List Nat)
    (hkey : key.length = 16 ∨ key.length = 24 ∨ key.length = 32)
    (hiv : iv.length = 16)
    (hne : ct ≠ [])
    (halign : ct.length % block_size = 0)
    (hlen : (C.dec key iv ct).length = ct.length) :
    (aes_decrypt C key iv ct).isSome = true := by
  have hout : C.dec key iv ct ≠ [] := by
    intro h
    apply hne
    rw [← List.length_eq_zero, ← hlen, h]
    rfl
  obtain ⟨b, hb⟩ := Option.isSome_iff_exists.mp
    (by rwa [List.getLast?_isSome] : (C.dec key iv ct).getLast?.isSome)
  rw [aes_decrypt_eq_of_ok ⟨hkey, hiv⟩ halign, hb]
  rfl

/-- Witness for the amended C5: a ciphertext ending in pad byte 3 not matched
by the two preceding bytes is still decrypted successfully. -/
theorem aes_decrypt_skips_padding_validation_witness :
    (aes_decrypt idCipher (List.replicate 16 2) (List.replicate 16 3)
      (List.replicate 15 0 ++ [3])).isSome = true :=
  aes_decrypt_skips_padding_validation idCipher _ _ _ (Or.inl (by decide))
    (by decide) (by decide) (by decide) rfl

/-- The base64 codec of the Python standard library (`base64.b64encode` and
`base64.b64decode`), modelled abstractly as an external primitive; decoding
an encoding gives the input back, which theorems state as a hypothesis. -/
structure B64Codec where
  b64encode : List Nat → List Nat
  b64decode : List Nat → Option (List Nat)

/-- A concrete codec satisfying the round-trip contract, used to evaluate the
abstract theorems on concrete inputs. -/
def idB64 : B64Codec :=
  { b64encode := fun d => d, b64decode := fun d => some d }

/-- `aes_encrypt_b64(key, data)` from crypto.py: `iv = geturandom(16)` (drawn
from the security module; the drawn value is passed as the `iv` argument
here), then base64 of `iv + aes_encrypt(key, iv, data)`. -/
def aes_encrypt_b64 (C : AESCipher) (B : B64Codec) (iv key data : List Nat) :
    Option (List Nat) :=
  (aes_encrypt C key iv data).map (fun encdata => B.b64encode (iv ++ encdata))

/-- `aes_decrypt_b64(key, data_b64)` from crypto.py: base64-decode, split off
exactly the first 16 bytes as the IV, decrypt the remainder. -/
def aes_decrypt_b64 (C : AESCipher) (B : B64Codec) (key data_b64 : List Nat) :
    Option (List Nat) :=
  (B.b64decode data_b64).bind (fun data_bin =>
    aes_decrypt C key (data_bin.take 16) (data_bin.drop 16))

/-- C7: decrypting the b64 envelope produced by aes_encrypt_b64 returns the
original data, for every valid AES key, every 16-byte IV drawn from the
module, and every data string.  Cipher and codec hypotheses are the library
contracts of AES-CBC and base64. -/
theorem aes_decrypt_b64_aes_encrypt_b64 (C : AESCipher) (B : B64Codec)
    (iv key data : List Nat)
    (hkey : key.length = 16 ∨ key.length = 24 ∨ key.length = 32)
    (hiv : iv.length = 16)
    (hlen : ∀ d, (C.enc key iv d).length = d.length)
    (hrt : ∀ d, d.length % block_size = 0 → C.dec key iv (C.enc key iv d) = d)
    (hb64 : ∀ x, B.b64decode (B.b64encode x) = some x) :
    (aes_encrypt_b64 C B iv key data).bind (aes_decrypt_b64 C B key) =
      some data := by
  have hok : aes_new_ok key iv := ⟨hkey, hiv⟩
  unfold aes_encrypt_b64 aes_encrypt
  rw [if_pos hok, Option.map_some', Option.some_bind]
  unfold aes_decrypt_b64
  rw [hb64, Option.some_bind]
  have htake : ∀ e : List Nat, (iv ++ e).take 16 = iv := fun e => by
    rw [← hiv]; exact List.take_left iv e
  have hdrop : ∀ e : List Nat, (iv ++ e).drop 16 = e := fun e => by
    rw [← hiv]; exact List.drop_left iv e
  rw [htake, hdrop]
  exact aes_roundtrip_core C key iv data hok hlen hrt

/-- Witness for C7: the envelope round trip evaluated at a concrete key, IV
and data string with concrete cipher and codec instantiations. -/
theorem aes_decrypt_b64_aes_encrypt_b64_witness :
    (aes_encrypt_b64 idCipher idB64 (List.replicate 16 9) (List.replicate 24 0)
        [7, 7, 7]).bind
      (aes_decrypt_b64 idCipher idB64 (List.replicate 24 0)) = some [7, 7, 7] :=
  aes_decrypt_b64_aes_encrypt_b64 idCipher idB64 _ _ _ (Or.inr (Or.inl (by decide)))
    (by decide) (fun _ => rfl) (fun _ _ => rfl) (fun _ => rfl)

/-- The RSA and hash primitives used by the Sign class, modelled abstractly:
`digest` is `SHA256.new(s).digest()` (also standing in for the hash object in
the PKCS branch), `rawSign`/`rawVerify` are `RSAkey.sign(h, 1)[0]` and
`RSAkey.verify(h, (sig,))` of the raw RSA branch, `pkcsSign` is
`pkcs1_15.new(RSAkey).sign(h)`, returning the signature bytes. -/
structure RSAProvider where
  digest : List Nat → List Nat
  rawSign : List Nat → Nat
  rawVerify : List Nat → Nat → Bool
  pkcsSign : List Nat → List Nat

/-- `Sign.sign(s)` from crypto.py.  The build-time flag `SIGN_WITH_RSA` is
true when the PyCrypto build has no `Crypto.Signature.pkcs1_15`.  In the raw
RSA branch the returned decimal string is `str(signature[0])` of the tuple
returned by `RSAkey.sign`, i.e. the signature integer; in the PKCS branch
`signature` is a byte string, so `str(signature[0])` is only its FIRST BYTE
(`none` models the `IndexError` on an empty signature).  The returned decimal
string is represented by the integer it denotes. -/
def Sign.sign (R : RSAProvider) (signWithRSA : Bool) (s : List Nat) : Option Nat :=
  if signWithRSA then
    some (R.rawSign (R.digest s))
  else
    (R.pkcsSign (R.digest s)).head?

/-- `Sign.verify(s, signature)` from crypto.py.  `r` is initialised to
`False`; in the raw RSA branch it is assigned the library verification
result; in the PKCS branch `pkcs1_15.new(RSAkey).verify(...)` is invoked for
effect only (any exception is caught) and `r` is NEVER reassigned, so the
function returns `False` unconditionally in that branch. -/
def Sign.verify (R : RSAProvider) (signWithRSA : Bool) (s : List Nat)
    (signature : Nat) : Bool :=
  if signWithRSA then
    R.rawVerify (R.digest s) signature
  else
    false

/-- A concrete provider whose raw primitives form a correct signature scheme:
verification succeeds exactly on the signed value. -/
def okRSA : RSAProvider :=
  { digest := fun s => s
    rawSign := fun d => bytesToNat d
    rawVerify := fun d n => n == bytesToNat d
    pkcsSign := fun d => 0 :: d }

/-- C1 (code bug): with a correct RSA provider, the sign/verify round trip
holds in the raw RSA branch, but in the PKCS#1 v1.5 branch (the branch
compiled in whenever `pkcs1_15` is importable) `Sign.verify` returns `False`
for every message and every signature - including the one `Sign.sign` just
produced - because `r` is never set after a successful verification. -/
theorem Sign_verify_pkcs_branch_always_false :
    (∀ (R : RSAProvider) (s : List Nat) (sig : Nat),
      Sign.verify R false s sig = false) ∧
    (Sign.sign okRSA false [109, 115, 103]).isSome = true ∧
    Sign.verify okRSA false [109, 115, 103]
      ((Sign.sign okRSA false [109, 115, 103]).getD 0) = false ∧
    Sign.verify okRSA true [109, 115, 103]
      ((Sign.sign okRSA true [109, 115, 103]).getD 0) = true := by
  refine ⟨fun R s sig => rfl, by decide, rfl, by decide⟩

/-- The security module object, as far as the secret-handle code uses it:
`hsm.encrypt(data, iv, id)` and `hsm.decrypt(data, iv, id)`.  The module
implementations live under privacyidea/lib/security/, outside this
repository, so the operations stay abstract. -/
structure HSM where
  encrypt : List Nat → List Nat → Nat → List Nat
  decrypt : List Nat → List Nat → Nat → List Nat

/-- `encrypt(data, iv, id=0)` from crypto.py: delegate to the module. -/
def encrypt (H : HSM) (data iv : List Nat) (id : Nat := 0) : List Nat :=
  H.encrypt data iv id

/-- `decrypt(input, iv, id=0)` from crypto.py: delegate to the module. -/
def decrypt (H : HSM) (input iv : List Nat) (id : Nat := 0) : List Nat :=
  H.decrypt input iv id

/-- The SecretObj state: the stored encrypted value, its IV, the lazily
materialised decrypted key (`None` until `_setupKey_` runs) and the preserve
flag. -/
structure SecretObj where
  val : List Nat
  iv : List Nat
  bkey : Option (List Nat)
  preserve : Bool

/-- `SecretObj.__init__(val, iv, preserve=True)`. -/
def SecretObj.init (val iv : List Nat) (preserve : Bool := true) : SecretObj :=
  { val := val, iv := iv, bkey := none, preserve := preserve }

/-- `SecretObj.compare(key)`: unhexlify the candidate, re-encrypt it under
the stored IV (key id 0), hexlify and compare with the stored value.  `none`
models the `binascii.Error` on a malformed hex candidate. -/
def SecretObj.compare (H : HSM) (s : SecretObj) (key : List Nat) : Option Bool :=
  (unhexlify key).map (fun bhOtpKey =>
    let enc_otp_key := encrypt H bhOtpKey s.iv
    let otpKeyEnc := hexlify enc_otp_key
    otpKeyEnc == s.val)

/-- `SecretObj._setupKey_()`: if no key is materialised yet, decrypt the
stored value, unhexlify it into `bkey` and zero the intermediate hex string.
`none` models the `binascii.Error` on a malformed decryption. -/
def SecretObj._setupKey_ (H : HSM) (s : SecretObj) : Option SecretObj :=
  match s.bkey with
  | some _ => some s
  | none =>
    (unhexlify (decrypt H s.val s.iv)).map (fun k => { s with bkey := some k })

/-- `SecretObj._clearKey_(preserve=False)`: zero and drop the materialised
key unless asked to preserve it. -/
def SecretObj._clearKey_ (s : SecretObj) (preserve : Bool := false) : SecretObj :=
  if preserve = false ∧ s.bkey ≠ none then { s with bkey := none } else s

/-- `SecretObj.hmac_digest(data_input, hash_algo)`: materialise the key,
compute the HMAC (the `hmac.new(...).digest()` library call is the abstract
parameter `hm`), then clear the key unless `preserve` is set.  Returns the
digest together with the post-call handle state. -/
def SecretObj.hmac_digest (H : HSM) (hm : List Nat → List Nat → List Nat)
    (s : SecretObj) (data_input : List Nat) : Option (List Nat × SecretObj) :=
  (SecretObj._setupKey_ H s).map (fun s1 =>
    let h := hm (s1.bkey.getD []) data_input
    (h, SecretObj._clearKey_ s1 s1.preserve))

/-- `SecretObj.aes_decrypt(data_input)` (ECB decryption for the yubikey):
materialise the key, decrypt with `AES.new(bkey, AES.MODE_ECB)` (the abstract
parameter `ecb`), then clear the key unless `preserve` is set. -/
def SecretObj.aes_decrypt (H : HSM) (ecb : List Nat → List Nat → List Nat)
    (s : SecretObj) (data_input : List Nat) : Option (List Nat × SecretObj) :=
  (SecretObj._setupKey_ H s).map (fun s1 =>
    (ecb (s1.bkey.getD []) data_input, SecretObj._clearKey_ s1 s1.preserve))

/-- A concrete security module whose encryption is the identity (injective
and byte-preserving), used to evaluate the abstract theorems. -/
def idHSM : HSM :=
  { encrypt := fun d _ _ => d, decrypt := fun d _ _ => d }

/-- C4: for a handle whose stored value is the hex of `encrypt(raw_key, iv)`,
compare answers true on the hex of `raw_key` and false on the hex of any
different key; and compare never consults the module's decrypt operation.
The hypotheses are byte-validity of the keys and ciphertexts and injectivity
of the module's encryption under a fixed IV (it has an inverse). -/
theorem SecretObj_compare_spec (H : HSM) (raw other iv : List Nat)
    (hraw : ∀ b ∈ raw, b < 256)
    (hother : ∀ b ∈ other, b < 256)
    (hencraw : ∀ b ∈ H.encrypt raw iv 0, b < 256)
    (hencother : ∀ b ∈ H.encrypt other iv 0, b < 256)
    (hinj : ∀ d d', H.encrypt d iv 0 = H.encrypt d' iv 0 → d = d')
    (hne : other ≠ raw) :
    SecretObj.compare H (SecretObj.init (hexlify (H.encrypt raw iv 0)) iv)
        (hexlify raw) = some true ∧
    SecretObj.compare H (SecretObj.init (hexlify (H.encrypt raw iv 0)) iv)
        (hexlify other) = some false ∧
    (∀ H2 : HSM, H2.encrypt = H.encrypt → ∀ key,
      SecretObj.compare H2 (SecretObj.init (hexlify (H.encrypt raw iv 0)) iv) key =
        SecretObj.compare H (SecretObj.init (hexlify (H.encrypt raw iv 0)) iv) key) := by
  refine ⟨?_, ?_, ?_⟩
  · unfold SecretObj.compare SecretObj.init encrypt
    rw [unhexlify_hexlify hraw, Option.map_some']
    simp
  · unfold SecretObj.compare SecretObj.init encrypt
    rw [unhexlify_hexlify hother, Option.map_some']
    simp only [Option.some.injEq]
    rw [beq_eq_false_iff_ne]
    intro hcontra
    exact hne (hinj other raw (hexlify_injOn hencother hencraw hcontra))
  · intro H2 h2 key
    unfold SecretObj.compare encrypt
    rw [h2]

/-- Witness for C4: evaluated with the identity module, a stored value built
from the one-byte key 1 and the distinct candidate key 2. -/
theorem SecretObj_compare_spec_witness :
    SecretObj.compare idHSM (SecretObj.init (hexlify (idHSM.encrypt [1] [0] 0)) [0])
        (hexlify [1]) = some true ∧
    SecretObj.compare idHSM (SecretObj.init (hexlify (idHSM.encrypt [1] [0] 0)) [0])
        (hexlify [2]) = some false ∧
    (∀ H2 : HSM, H2.encrypt = idHSM.encrypt → ∀ key,
      SecretObj.compare H2 (SecretObj.init (hexlify (idHSM.encrypt [1] [0] 0)) [0]) key =
        SecretObj.compare idHSM
          (SecretObj.init (hexlify (idHSM.encrypt [1] [0] 0)) [0]) key) :=
  SecretObj_compare_spec idHSM [1] [2] [0] (by decide) (by decide) (by decide)
    (by decide) (fun _ _ h => h) (by decide)

/-- C10: a SecretObj constructed without an explicit preserve argument has
preserve = true; hmac_digest and the ECB aes_decrypt then leave the
materialised key cached in bkey after returning; the cached key is dropped
only by `_clearKey_` with its default argument, which is what `__del__` runs
when the handle is destroyed. -/
theorem SecretObj_preserve_default_caches_key (H : HSM)
    (hm ecb : List Nat → List Nat → List Nat) (val iv data k : List Nat)
    (hk : unhexlify (decrypt H val iv) = some k) :
    (SecretObj.init val iv).preserve = true ∧
    SecretObj.hmac_digest H hm (SecretObj.init val iv) data =
      some (hm k data, { SecretObj.init val iv with bkey := some k }) ∧
    SecretObj.aes_decrypt H ecb (SecretObj.init val iv) data =
      some (ecb k data, { SecretObj.init val iv with bkey := some k }) ∧
    (SecretObj._clearKey_ { SecretObj.init val iv with bkey := some k }).bkey
      = none := by
  refine ⟨rfl, ?_, ?_, ?_⟩
  · unfold SecretObj.hmac_digest SecretObj._setupKey_ SecretObj.init
      SecretObj._clearKey_
    rw [hk]
    simp
  · unfold SecretObj.aes_decrypt SecretObj._setupKey_ SecretObj.init
      SecretObj._clearKey_
    rw [hk]
    simp
  · unfold SecretObj._clearKey_ SecretObj.init
    simp

/-- Witness for C10: evaluated with the identity module, whose stored value
decrypts to the hex string of the one-byte key 5. -/
theorem SecretObj_preserve_default_caches_key_witness :
    (SecretObj.init (hexlify [5]) [0]).preserve = true ∧
    SecretObj.hmac_digest idHSM (fun key d => key ++ d)
        (SecretObj.init (hexlify [5]) [0]) [9] =
      some ([5] ++ [9], { SecretObj.init (hexlify [5]) [0] with bkey := some [5] }) ∧
    SecretObj.aes_decrypt idHSM (fun key d => key ++ d)
        (SecretObj.init (hexlify [5]) [0]) [9] =
      some ([5] ++ [9], { SecretObj.init (hexlify [5]) [0] with bkey := some [5] }) ∧
    (SecretObj._clearKey_
        { SecretObj.init (hexlify [5]) [0] with bkey := some [5] }).bkey = none :=
  SecretObj_preserve_default_caches_key idHSM (fun key d => key ++ d)
    (fun key d => key ++ d) (hexlify [5]) [0] [9] [5] (by decide)

/-- The state of a configured security module as the HSM manager sees it:
its readiness flag.  The module classes live under privacyidea/lib/security/,
outside this repository. -/
structure SecurityModule where
  is_ready : Bool

/-- Modelled from the spec: `DefaultSecurityModule.setup_module`, which lives
under privacyidea/lib/security/ and is not in src/.  Per the spec, `setup`
fails with AlreadySetUp on a ready module and otherwise transitions the
module from not ready to ready, returning the resulting readiness flag. -/
def setup_module (m : SecurityModule) (_password : String) :
    Except String (SecurityModule × Bool) :=
  if m.is_ready then Except.error "Security module already set up"
  else Except.ok ({ is_ready := true }, true)

/-- `get_hsm(require_ready=True)` from crypto.py: the module held by the
app-local store (the argument; `none` when it is missing), raising on an
absent module, and on a not-ready module when readiness is required. -/
def get_hsm (hsmOpt : Option SecurityModule) (require_ready : Bool := true) :
    Except String SecurityModule :=
  match hsmOpt with
  | none => Except.error "hsm is None!"
  | some hsm =>
    if require_ready = true ∧ hsm.is_ready = false then
      Except.error "hsm not ready!"
    else Except.ok hsm

/-- `set_hsm_password(password)` from crypto.py: obtain the module (via
init_hsm, no readiness requirement), fail if it is already ready, otherwise
delegate to the module's `setup_module`.  The setup operation is passed as a
parameter so that theorems can state that it is never invoked on a ready
module. -/
def set_hsm_password
    (setup : SecurityModule → String → Except String (SecurityModule × Bool))
    (m : SecurityModule) (password : String) :
    Except String (SecurityModule × Bool) :=
  if m.is_ready then Except.error "HSM already set up." else setup m password

/-- C6: on a configured but fresh module, get_hsm with require_ready fails
with the not-ready error; one set_hsm_password call succeeds and makes the
same get_hsm call succeed; a second set_hsm_password call fails with the
already-set-up error without invoking setup (the result is the same for
every setup function); and on a not-ready module set_hsm_password delegates
to the module's setup, returning its readiness flag. -/
theorem hsm_password_lifecycle (m0 : SecurityModule) (pw pw2 : String)
    (hfresh : m0.is_ready = false) :
    get_hsm (some m0) true = Except.error "hsm not ready!" ∧
    set_hsm_password setup_module m0 pw =
      Except.ok ({ is_ready := true }, true) ∧
    get_hsm (some { is_ready := true }) true = Except.ok { is_ready := true } ∧
    (∀ setup, set_hsm_password setup { is_ready := true } pw2 =
      Except.error "HSM already set up.") ∧
    (∀ setup m pw3, m.is_ready = false →
      set_hsm_password setup m pw3 = setup m pw3) := by
  refine ⟨?_, ?_, rfl, fun setup => rfl, fun setup m pw3 hm => ?_⟩
  · show (if true = true ∧ m0.is_ready = false then Except.error "hsm not ready!"
      else Except.ok m0) = (Except.error "hsm not ready!" : Except String SecurityModule)
    rw [if_pos ⟨rfl, hfresh⟩]
  · unfold set_hsm_password setup_module
    rw [if_neg (by rw [hfresh]; exact Bool.false_ne_true),
      if_neg (by rw [hfresh]; exact Bool.false_ne_true)]
  · unfold set_hsm_password
    rw [if_neg (by rw [hm]; exact Bool.false_ne_true)]

/-- Witness for C6: the lifecycle run from a concrete fresh module. -/
theorem hsm_password_lifecycle_witness :
    get_hsm (some { is_ready := false }) true = Except.error "hsm not ready!" ∧
    set_hsm_password setup_module { is_ready := false } "x" =
      Except.ok ({ is_ready := true }, true) ∧
    get_hsm (some { is_ready := true }) true = Except.ok { is_ready := true } ∧
    (∀ setup, set_hsm_password setup { is_ready := true } "x" =
      Except.error "HSM already set up.") ∧
    (∀ setup m pw3, m.is_ready = false →
      set_hsm_password setup m pw3 = setup m pw3) :=
  hsm_password_lifecycle { is_ready := false } "x" "x" rfl

/-- `urandom.precision`. -/
def urandom.precision : Nat := 12

/-- One binary64 (Python float) rounding step.  The float unit sits below
the repository's code, like the crypto libraries, so it is modelled
abstractly: every float operation in the urandom functions wraps its exact
rational result in `fl`, and theorems constrain `fl` only by the documented
IEEE-754 contract (monotone, idempotent, exact at the representable values
they mention). -/
structure PyFloat where
  fl : ℚ → ℚ

/-- `urandom.random()` from crypto.py: draw `precision` random bytes from
the security module (the drawn value is the argument `bs`), convert their
hex integer to a float (`int(randhex, 16) * 1.0`, one rounding step),
likewise `intmax = 2 ** (8 * precision) * 1.0`, then divide (one more
rounding step; the quotient of a double by the power of two 2^96 is in fact
exact, but the rounding step is kept for faithfulness). -/
def urandom.random (F : PyFloat) (bs : List Nat) : ℚ :=
  F.fl (F.fl ((bytesToNat bs : ℚ)) / F.fl ((2 : ℚ) ^ (8 * urandom.precision)))

/-- `urandom.uniform(start, end=None)` from crypto.py: with no `end` the
range starts at 0; `startf = start * 1.0`; if the rounded distance is
negative it is negated and the anchor moves to `end`; the result is
`startf + random() * dist`, every float operation rounding once. -/
def urandom.uniform (F : PyFloat) (bs : List Nat) (start : ℚ)
    (endOpt : Option ℚ) : ℚ :=
  let se : ℚ × ℚ :=
    match endOpt with
    | none => (0, start)
    | some e => (start, e)
  let startf := F.fl (se.1 * 1)
  let dist := F.fl (se.2 - se.1)
  F.fl ((if dist < 0 then F.fl (se.2 * 1) else startf) +
    F.fl (urandom.random F bs * (if dist < 0 then F.fl (dist * (-1)) else dist)))

/-- `urandom.randint(start, end=None)` from crypto.py: the anchor and
distance logic runs on exact integers; `start + randf * dist` converts both
integers to floats (one rounding step each), multiplies and adds (one
rounding step each), and `int()` truncates toward zero. -/
def urandom.randint (F : PyFloat) (bs : List Nat) (start : ℤ)
    (endOpt : Option ℤ) : ℤ :=
  let se : ℤ × ℤ :=
    match endOpt with
    | none => (0, start)
    | some e => (start, e)
  let dist := se.2 - se.1
  truncInt (F.fl (F.fl (((if dist < 0 then se.2 else se.1) : ℤ) : ℚ) +
    F.fl (urandom.random F bs *
      F.fl (((if dist < 0 then -dist else dist : ℤ) : ℚ)))))

theorem urandom.random_nonneg (F : PyFloat) (bs : List Nat)
    (hmono : Monotone F.fl) (h0 : F.fl 0 = 0)
    (hmax : F.fl ((2 : ℚ) ^ (8 * urandom.precision)) =
      (2 : ℚ) ^ (8 * urandom.precision)) :
    0 ≤ urandom.random F bs := by
  unfold urandom.random
  rw [hmax]
  have hn : (0 : ℚ) ≤ F.fl ((bytesToNat bs : ℚ)) := by
    have h := hmono (Nat.cast_nonneg (bytesToNat bs))
    rwa [h0] at h
  have hq : (0 : ℚ) ≤ F.fl ((bytesToNat bs : ℚ)) / (2 : ℚ) ^ (8 * urandom.precision) :=
    div_nonneg hn (pow_nonneg (by norm_num) _)
  have h := hmono hq
  rwa [h0] at h

theorem urandom.random_le_one (F : PyFloat) (bs : List Nat)
    (hmono : Monotone F.fl) (h1 : F.fl 1 = 1)
    (hmax : F.fl ((2 : ℚ) ^ (8 * urandom.precision)) =
      (2 : ℚ) ^ (8 * urandom.precision))
    (hlen : bs.length = urandom.precision) (hbytes : ∀ x ∈ bs, x < 256) :
    urandom.random F bs ≤ 1 := by
  unfold urandom.random
  rw [hmax]
  have hnb : ((bytesToNat bs : ℚ)) ≤ (2 : ℚ) ^ (8 * urandom.precision) := by
    have h := bytesToNat_lt hbytes
    rw [hlen] at h
    calc ((bytesToNat bs : ℚ)) ≤ ((256 ^ urandom.precision : Nat) : ℚ) := by
          exact_mod_cast le_of_lt h
      _ = (2 : ℚ) ^ (8 * urandom.precision) := by
          unfold urandom.precision
          norm_num
  have hfn : F.fl ((bytesToNat bs : ℚ)) ≤ (2 : ℚ) ^ (8 * urandom.precision) := by
    have h := hmono hnb
    rwa [hmax] at h
  have hq : F.fl ((bytesToNat bs : ℚ)) / (2 : ℚ) ^ (8 * urandom.precision) ≤ 1 := by
    rw [div_le_one (pow_pos (by norm_num) _)]
    exact hfn
  have h := hmono hq
  rwa [h1] at h

theorem truncInt_ge {a : ℤ} {x : ℚ} (h : (a : ℚ) ≤ x) : a ≤ truncInt x := by
  unfold truncInt
  by_cases h0 : 0 ≤ x
  · rw [if_pos h0]
    exact Int.le_floor.2 h
  · rw [if_neg h0]
    calc a = ⌈(a : ℚ)⌉ := (Int.ceil_intCast a).symm
      _ ≤ ⌈x⌉ := Int.ceil_mono h

theorem truncInt_le_truncInt {x y : ℚ} (h : x ≤ y) : truncInt x ≤ truncInt y := by
  unfold truncInt
  by_cases hx : 0 ≤ x
  · rw [if_pos hx, if_pos (le_trans hx h)]
    exact Int.floor_mono h
  · rw [if_neg hx]
    by_cases hy : 0 ≤ y
    · rw [if_pos hy]
      have h1 : ⌈x⌉ ≤ 0 := Int.ceil_le.2 (by exact_mod_cast le_of_lt (lt_of_not_ge hx))
      have h2 : (0 : ℤ) ≤ ⌊y⌋ := Int.le_floor.2 (by exact_mod_cast hy)
      omega
    · rw [if_neg hy]
      exact Int.ceil_mono h

/-- C3 as amended: with every float operation rounding once through `fl`
(binary64), and `fl` satisfying its documented contract - monotone,
idempotent, exact at 0, 1, 2^96 and at the arguments - every value of
uniform(a, b) is at least a and at most the float-computed right endpoint
fl(a + fl(b - a)), and every value of randint(a, b) is an integer at least a
and at most the truncation of the corresponding endpoint.  The original
strict upper bound by b is false of the program: the all-0xFF draw makes
random() return exactly 1.0 and the endpoint - which can equal b - is
reached, and for b ≤ 0 int() truncation reaches b even without rounding
(see the counterexample). -/
theorem urandom_uniform_randint_float_range (F : PyFloat) (bs : List Nat)
    (a b : ℚ) (ia ib : ℤ)
    (hmono : Monotone F.fl)
    (hidem : ∀ q, F.fl (F.fl q) = F.fl q)
    (h0 : F.fl 0 = 0)
    (h1 : F.fl 1 = 1)
    (hmax : F.fl ((2 : ℚ) ^ (8 * urandom.precision)) =
      (2 : ℚ) ^ (8 * urandom.precision))
    (hlen : bs.length = urandom.precision)
    (hbytes : ∀ x ∈ bs, x < 256)
    (ha : F.fl a = a)
    (hia : F.fl ((ia : ℚ)) = ((ia : ℚ)))
    (hab : a < b) (hiab : ia < ib) :
    (a ≤ urandom.uniform F bs a (some b) ∧
      urandom.uniform F bs a (some b) ≤ F.fl (a + F.fl (b - a))) ∧
    (ia ≤ urandom.randint F bs ia (some ib) ∧
      urandom.randint F bs ia (some ib) ≤
        truncInt (F.fl ((ia : ℚ) + F.fl (((ib - ia : ℤ) : ℚ))))) := by
  have hr0 : 0 ≤ urandom.random F bs := urandom.random_nonneg F bs hmono h0 hmax
  have hr1 : urandom.random F bs ≤ 1 :=
    urandom.random_le_one F bs hmono h1 hmax hlen hbytes
  have hfl_nonneg : ∀ q : ℚ, 0 ≤ q → 0 ≤ F.fl q := by
    intro q hq
    have h := hmono hq
    rwa [h0] at h
  constructor
  · have hudef : urandom.uniform F bs a (some b) =
        F.fl ((if F.fl (b - a) < 0 then F.fl (b * 1) else F.fl (a * 1)) +
          F.fl (urandom.random F bs *
            (if F.fl (b - a) < 0 then F.fl (F.fl (b - a) * (-1))
             else F.fl (b - a)))) := rfl
    have hd0 : 0 ≤ F.fl (b - a) := hfl_nonneg _ (by linarith)
    rw [hudef, if_neg (by linarith), if_neg (by linarith), mul_one, ha]
    set r := urandom.random F bs with hr
    set d := F.fl (b - a) with hd
    have ht0 : 0 ≤ F.fl (r * d) := hfl_nonneg _ (mul_nonneg hr0 hd0)
    have htd : F.fl (r * d) ≤ d := by
      have h := hmono (show r * d ≤ d by nlinarith)
      rwa [hd, hidem] at h
    constructor
    · have h2 := hmono (show a + 0 ≤ a + F.fl (r * d) by linarith)
      rwa [add_zero, ha] at h2
    · exact hmono (by linarith)
  · have hrdef : urandom.randint F bs ia (some ib) =
        truncInt (F.fl (F.fl (((if ib - ia < 0 then ib else ia) : ℤ) : ℚ) +
          F.fl (urandom.random F bs *
            F.fl (((if ib - ia < 0 then -(ib - ia) else ib - ia : ℤ) : ℚ))))) := rfl
    rw [hrdef, if_neg (by omega), if_neg (by omega), hia]
    set r := urandom.random F bs with hr
    set d := F.fl (((ib - ia : ℤ) : ℚ)) with hd
    have hd0 : 0 ≤ d := by
      apply hfl_nonneg
      exact_mod_cast Int.sub_nonneg.2 (le_of_lt hiab)
    have ht0 : 0 ≤ F.fl (r * d) := hfl_nonneg _ (mul_nonneg hr0 hd0)
    have htd : F.fl (r * d) ≤ d := by
      have h := hmono (show r * d ≤ d by nlinarith)
      rwa [hd, hidem] at h
    constructor
    · apply truncInt_ge
      have h2 := hmono (show (ia : ℚ) + 0 ≤ (ia : ℚ) + F.fl (r * d) by linarith)
      rwa [add_zero, hia] at h2
    · exact truncInt_le_truncInt (hmono (by linarith))

/-- A concrete rounding function agreeing with binary64 rounding at every
value the results below evaluate it at: the binary64 ulp in [2^95, 2^96] is
2^43, so every real in [2^96 - 2^42, 2^96] rounds to the double 2^96;
bandRound rounds the band [2^96 - 1, 2^96] up to 2^96 and is exact
elsewhere. -/
def bandRound : PyFloat :=
  { fl := fun q =>
      if (2 : ℚ) ^ 96 - 1 ≤ q ∧ q ≤ (2 : ℚ) ^ 96 then (2 : ℚ) ^ 96 else q }

theorem bandRound_fl_eq (q : ℚ) :
    bandRound.fl q =
      if (2 : ℚ) ^ 96 - 1 ≤ q ∧ q ≤ (2 : ℚ) ^ 96 then (2 : ℚ) ^ 96 else q := rfl

theorem bandRound_mono : Monotone bandRound.fl := by
  intro x y hxy
  rw [bandRound_fl_eq, bandRound_fl_eq]
  by_cases hx : (2 : ℚ) ^ 96 - 1 ≤ x ∧ x ≤ (2 : ℚ) ^ 96
  · rw [if_pos hx]
    by_cases hy : (2 : ℚ) ^ 96 - 1 ≤ y ∧ y ≤ (2 : ℚ) ^ 96
    · rw [if_pos hy]
    · rw [if_neg hy]
      push_neg at hy
      have h := hy (by linarith [hx.1])
      linarith
  · rw [if_neg hx]
    by_cases hy : (2 : ℚ) ^ 96 - 1 ≤ y ∧ y ≤ (2 : ℚ) ^ 96
    · rw [if_pos hy]
      linarith [hy.2]
    · rw [if_neg hy]
      exact hxy

theorem bandRound_idem (q : ℚ) : bandRound.fl (bandRound.fl q) = bandRound.fl q := by
  by_cases h : (2 : ℚ) ^ 96 - 1 ≤ q ∧ q ≤ (2 : ℚ) ^ 96
  · have hq : bandRound.fl q = (2 : ℚ) ^ 96 := by
      rw [bandRound_fl_eq, if_pos h]
    rw [hq, bandRound_fl_eq, if_pos ⟨by norm_num, le_refl _⟩]
  · have hq : bandRound.fl q = q := by
      rw [bandRound_fl_eq, if_neg h]
    rw [hq, hq]

theorem bandRound_small {q : ℚ} (hq : q ≤ 1) : bandRound.fl q = q := by
  rw [bandRound_fl_eq, if_neg]
  intro hc
  have h1 : (1 : ℚ) < (2 : ℚ) ^ 96 - 1 := by norm_num
  linarith [hc.1]

/-- The identity as a PyFloat: binary64 rounding is exact on representable
values, so this instantiation agrees with the float unit on computations all
of whose intermediate values are representable doubles. -/
def idRound : PyFloat :=
  { fl := fun q => q }

theorem idRound_fl (q : ℚ) : idRound.fl q = q := rfl

/-- The 12-byte module draw 0xE0 followed by eleven zero bytes; its integer
value is 224 * 256^11 = 7 * 2^93, so random() returns exactly 7/8. -/
def cbytes : List Nat := 224 :: List.replicate 11 0

/-- The all-0xFF 12-byte module draw; its integer value is 2^96 - 1. -/
def ffbytes : List Nat := List.replicate 12 255

/-- Counterexample to C3 as stated, exhibiting both failure modes.
(1) int() truncation: on the draw 0xE0 00...00, every float the computation
produces (224 * 2^88, 7/8, 4.0, 3.5, -1.5) is an exactly representable
double, so binary64 rounding is the identity on all of them (idRound) and
randint(-5, -1) = int(-5 + (7/8) * 4) = int(-1.5) = -1, the upper bound b.
(2) float rounding: on the all-0xFF draw, int(randhex, 16) = 2^96 - 1
converts to the double 2^96 (the ulp there is 2^43), random() returns
exactly 1.0, and uniform(0, 1) returns 1.0 = b; bandRound agrees with
binary64 rounding at every value this computation touches. -/
theorem urandom_hits_upper_bound :
    cbytes.length = 12 ∧ (∀ x ∈ cbytes, x < 256) ∧ ((-5 : ℤ) < -1) ∧
    urandom.randint idRound cbytes (-5) (some (-1)) = -1 ∧
    ffbytes.length = 12 ∧ (∀ x ∈ ffbytes, x < 256) ∧ ((0 : ℚ) < 1) ∧
    urandom.uniform bandRound ffbytes 0 (some 1) = 1 := by
  refine ⟨by decide, by decide, by decide, ?_, by decide, by decide, by norm_num, ?_⟩
  · have hran : urandom.random idRound cbytes = 7/8 := by
      unfold urandom.random
      rw [idRound_fl, idRound_fl, idRound_fl,
        show bytesToNat cbytes = 224 * 256 ^ 11 from rfl,
        show (8 * urandom.precision) = 96 from rfl]
      norm_num
    have hrdef : urandom.randint idRound cbytes (-5) (some (-1)) =
        truncInt (idRound.fl (idRound.fl
            (((if (-1 : ℤ) - (-5) < 0 then (-1 : ℤ) else (-5 : ℤ)) : ℤ) : ℚ) +
          idRound.fl (urandom.random idRound cbytes *
            idRound.fl (((if (-1 : ℤ) - (-5) < 0 then -((-1 : ℤ) - (-5))
              else (-1 : ℤ) - (-5) : ℤ) : ℚ))))) := rfl
    rw [hrdef, if_neg (by omega), if_neg (by omega), hran]
    simp only [idRound_fl]
    rw [show ((((-5 : ℤ)) : ℚ)) + 7/8 * ((((-1 : ℤ) - (-5) : ℤ)) : ℚ) = -(3/2) by
      push_cast
      norm_num]
    unfold truncInt
    rw [if_neg (by norm_num), Int.ceil_neg]
    norm_num [Int.floor_eq_iff]
  · have hcast : ((bytesToNat ffbytes : ℚ)) = (2 : ℚ) ^ 96 - 1 := by
      rw [show bytesToNat ffbytes = 79228162514264337593543950335 from by decide]
      norm_num
    have hb1 : bandRound.fl ((2 : ℚ) ^ 96 - 1) = (2 : ℚ) ^ 96 := by
      rw [bandRound_fl_eq, if_pos ⟨le_refl _, by norm_num⟩]
    have hb2 : bandRound.fl ((2 : ℚ) ^ 96) = (2 : ℚ) ^ 96 := by
      rw [bandRound_fl_eq, if_pos ⟨by norm_num, le_refl _⟩]
    have hrand : urandom.random bandRound ffbytes = 1 := by
      unfold urandom.random
      rw [show (8 * urandom.precision) = 96 from rfl, hcast, hb1, hb2,
        div_self (by norm_num : ((2 : ℚ) ^ 96) ≠ 0)]
      exact bandRound_small le_rfl
    have hudef : urandom.uniform bandRound ffbytes 0 (some 1) =
        bandRound.fl ((if bandRound.fl ((1 : ℚ) - 0) < 0 then bandRound.fl (1 * 1)
            else bandRound.fl ((0 : ℚ) * 1)) +
          bandRound.fl (urandom.random bandRound ffbytes *
            (if bandRound.fl ((1 : ℚ) - 0) < 0
             then bandRound.fl (bandRound.fl ((1 : ℚ) - 0) * (-1))
             else bandRound.fl ((1 : ℚ) - 0)))) := rfl
    have h10 : bandRound.fl ((1 : ℚ) - 0) = 1 := by
      rw [show (1 : ℚ) - 0 = 1 by norm_num]
      exact bandRound_small le_rfl
    rw [hudef, h10, if_neg (by norm_num : ¬((1 : ℚ) < 0)),
      if_neg (by norm_num : ¬((1 : ℚ) < 0)), hrand,
      show ((0 : ℚ) * 1) = 0 by norm_num, bandRound_small (by norm_num : (0:ℚ) ≤ 1),
      show ((1 : ℚ) * 1) = 1 by norm_num, bandRound_small le_rfl,
      show ((0 : ℚ) + 1) = 1 by norm_num]
    exact bandRound_small le_rfl

/-- Witness for the amended C3: evaluated with the band rounding function,
the all-zero draw, negative lower bounds and positive upper bounds. -/
theorem urandom_uniform_randint_float_range_witness :
    ((-1 : ℚ)/2 ≤ urandom.uniform bandRound (List.replicate 12 0)
        ((-1 : ℚ)/2) (some (1/2)) ∧
      urandom.uniform bandRound (List.replicate 12 0) ((-1 : ℚ)/2) (some (1/2)) ≤
        bandRound.fl ((-1 : ℚ)/2 + bandRound.fl ((1 : ℚ)/2 - (-1 : ℚ)/2))) ∧
    ((-1 : ℤ) ≤ urandom.randint bandRound (List.replicate 12 0) (-1) (some 1) ∧
      urandom.randint bandRound (List.replicate 12 0) (-1) (some 1) ≤
        truncInt (bandRound.fl ((((-1 : ℤ)) : ℚ) +
          bandRound.fl ((((1 : ℤ) - (-1 : ℤ) : ℤ)) : ℚ)))) :=
  urandom_uniform_randint_float_range bandRound (List.replicate 12 0)
    ((-1 : ℚ)/2) (1/2) (-1) 1 bandRound_mono bandRound_idem
    (bandRound_small (by norm_num)) (bandRound_small le_rfl)
    (by rw [show (8 * urandom.precision) = 96 from rfl]
        rw [bandRound_fl_eq, if_pos ⟨by norm_num, le_refl _⟩])
    (by decide) (by decide)
    (bandRound_small (by norm_num))
    (bandRound_small (by norm_num))
    (by norm_num) (by decide)

/-- `clen = int(length / 2.4 + 0.5)` from get_rand_digit_str, the exact
rational reading of the float expression. -/
def clenOf (length : Nat) : Nat :=
  (truncInt ((length : ℚ) / (2.4 : ℚ) + (0.5 : ℚ))).toNat

/-- The decimal string of a number, `"{0:d}".format(n)`: ASCII digit codes,
most significant first, no leading zeros, "0" for zero. -/
def decStr (n : Nat) : List Nat :=
  if n = 0 then [48] else ((Nat.digits 10 n).reverse).map (fun d => 48 + d)

/-- The pad-or-truncate step of get_rand_digit_str: left-pad with "0" when
too short, cut to `length` when too long. -/
def padTruncTo (length : Nat) (s : List Nat) : List Nat :=
  if s.length < length then List.replicate (length - s.length) 48 ++ s
  else if length < s.length then s.take length
  else s

/-- `get_rand_digit_str(length=16)` from crypto.py: raise ValueError on
length 1, draw `clen` bytes from the module's random source (`randBytes`),
read their hex as a decimal number, pad or truncate to exactly `length`
digits.  The `none` on an empty draw models the ValueError of `int()` on an
empty string. -/
def get_rand_digit_str (randBytes : Nat → List Nat) (length : Nat) :
    Option (List Nat) :=
  if length = 1 then none
  else if randBytes (clenOf length) = [] then none
  else some (padTruncTo length (decStr (bytesToNat (randBytes (clenOf length)))))

theorem padTruncTo_length (L : Nat) (s : List Nat) : (padTruncTo L s).length = L := by
  unfold padTruncTo
  by_cases h1 : s.length < L
  · rw [if_pos h1, List.length_append, List.length_replicate]
    omega
  · rw [if_neg h1]
    by_cases h2 : L < s.length
    · rw [if_pos h2, List.length_take]
      omega
    · rw [if_neg h2]
      omega

theorem padTruncTo_digits {L : Nat} {s : List Nat}
    (h : ∀ d ∈ s, 48 ≤ d ∧ d ≤ 57) :
    ∀ d ∈ padTruncTo L s, 48 ≤ d ∧ d ≤ 57 := by
  intro d hd
  unfold padTruncTo at hd
  by_cases h1 : s.length < L
  · rw [if_pos h1] at hd
    rcases List.mem_append.1 hd with hr | hs
    · have := List.eq_of_mem_replicate hr
      omega
    · exact h d hs
  · rw [if_neg h1] at hd
    by_cases h2 : L < s.length
    · rw [if_pos h2] at hd
      exact h d (List.take_subset _ _ hd)
    · rw [if_neg h2] at hd
      exact h d hd

theorem decStr_digits (n : Nat) : ∀ d ∈ decStr n, 48 ≤ d ∧ d ≤ 57 := by
  intro d hd
  unfold decStr at hd
  by_cases h0 : n = 0
  · rw [if_pos h0] at hd
    simp only [List.mem_singleton] at hd
    omega
  · rw [if_neg h0] at hd
    simp only [List.mem_map, List.mem_reverse] at hd
    obtain ⟨x, hx, rfl⟩ := hd
    have := Nat.digits_lt_base (by norm_num) hx
    omega

theorem clenOf_16 : clenOf 16 = 7 := by
  unfold clenOf truncInt
  rw [if_pos (by positivity),
    show ((16 : Nat) : ℚ) / (2.4 : ℚ) + (0.5 : ℚ) = 43/6 by norm_num]
  norm_num [Int.floor_eq_iff]
  decide

/-- C8 as amended: get_rand_digit_str(16) returns exactly 16 decimal digits
for every possible full draw of the module's random source, and
get_rand_digit_str(1) fails; the number of bytes drawn is
int(length/2.4 + 0.5) - the function consults the random source only at that
count - which is NOT ceil(length/2.4) for every length (see the
counterexample at length 3). -/
theorem get_rand_digit_str_spec (randBytes : Nat → List Nat)
    (hlen : (randBytes (clenOf 16)).length = clenOf 16) :
    (∃ s, get_rand_digit_str randBytes 16 = some s ∧ s.length = 16 ∧
      ∀ d ∈ s, 48 ≤ d ∧ d ≤ 57) ∧
    get_rand_digit_str randBytes 1 = none ∧
    (∀ randBytes2 L, randBytes (clenOf L) = randBytes2 (clenOf L) →
      get_rand_digit_str randBytes L = get_rand_digit_str randBytes2 L) := by
  refine ⟨?_, rfl, ?_⟩
  · have hne : ¬ randBytes (clenOf 16) = [] := by
      intro h
      rw [h, clenOf_16] at hlen
      simp at hlen
    unfold get_rand_digit_str
    rw [if_neg (by decide : ¬ (16 = 1)), if_neg hne]
    exact ⟨_, rfl, padTruncTo_length _ _, padTruncTo_digits (decStr_digits _)⟩
  · intro randBytes2 L h
    unfold get_rand_digit_str
    rw [h]

/-- Witness for the amended C8: the all-zero draw produces fifteen pad zeros
followed by the digit zero. -/
theorem get_rand_digit_str_spec_witness :
    (∃ s, get_rand_digit_str (fun n => List.replicate n 0) 16 = some s ∧
      s.length = 16 ∧ ∀ d ∈ s, 48 ≤ d ∧ d ≤ 57) ∧
    get_rand_digit_str (fun n => List.replicate n 0) 1 = none ∧
    (∀ randBytes2 L,
      (fun n => List.replicate n 0) (clenOf L) = randBytes2 (clenOf L) →
      get_rand_digit_str (fun n => List.replicate n 0) L =
        get_rand_digit_str randBytes2 L) :=
  get_rand_digit_str_spec (fun n => List.replicate n 0)
    (List.length_replicate _ _)

/-- The byte count the specification prescribes for get_rand_digit_str,
ceil(length / 2.4); stated from the spec's words, for comparison with the
code's clenOf. -/
def specDigitBytes (length : Nat) : ℤ :=
  ⌈(length : ℚ) / (2.4 : ℚ)⌉

/-- Counterexample to C8 as stated: at length 3 the code draws
int(3/2.4 + 0.5) = int(1.75) = 1 byte, while ceil(3/2.4) = ceil(1.25) = 2. -/
theorem clenOf_ne_specDigitBytes :
    clenOf 3 = 1 ∧ specDigitBytes 3 = 2 ∧ ((clenOf 3 : ℤ) ≠ specDigitBytes 3) := by
  have h1 : clenOf 3 = 1 := by
    unfold clenOf truncInt
    rw [if_pos (by positivity),
      show ((3 : Nat) : ℚ) / (2.4 : ℚ) + (0.5 : ℚ) = 7/4 by norm_num]
    norm_num [Int.floor_eq_iff]
  have h2 : specDigitBytes 3 = 2 := by
    unfold specDigitBytes
    rw [show ((3 : Nat) : ℚ) / (2.4 : ℚ) = 5/4 by norm_num]
    rw [Int.ceil_eq_iff]
    norm_num
  refine ⟨h1, h2, ?_⟩
  rw [h1, h2]
  decide
